import Mathlib

/-!
# CRC-16 driver of the K5 firmware (`K5_Driver/v2/crc.c`)

A shallow embedding of `CRC_Init` and `CRC_Calculate`, followed by the
properties of the checksum that the driver's specification states.

Machine integers are natural numbers. A `uint8_t` is a `Fin 256`; a
`uint16_t` object holds a natural number below `2 ^ 16`, and every
assignment to such an object reduces the assigned value modulo `2 ^ 16`.
Expressions are evaluated in the promoted type `int`; all intermediate
values are non-negative and far below `2 ^ 31`, so `int` arithmetic is
arithmetic on natural numbers.
-/

namespace K5.CRC

/-! ## The embedding -/

/-- A `uint8_t` memory cell. -/
abbrev Byte := Fin 256

/-- Conversion of an `int` value to `uint16_t`, as performed by an assignment
to a `uint16_t` object. -/
def uint16 (x : Nat) : Nat := x % 2 ^ 16

/-- Ways in which a run of the model can fail to return a checksum. -/
inductive Fault where
  /-- The read `pData[i]` fell outside the readable bytes. -/
  | outOfBounds (i : Nat)
  /-- The step budget of the model was used up before the loop ended. -/
  | outOfFuel
  deriving DecidableEq, Repr

/-- Result of a run of the model. -/
inductive Outcome (α : Type) where
  | ok (value : α)
  | fault (f : Fault)
  deriving DecidableEq, Repr

/-- The local variables of `CRC_Calculate` during the byte loop, together with
two ghost fields that record what the run did. -/
structure Locals where
  /-- The counter `uint16_t i`. -/
  i : Nat
  /-- The accumulator `uint16_t Crc`. -/
  Crc : Nat
  /-- Ghost: the indices `i` of the reads `pData[i]` performed so far, oldest first. -/
  reads : List Nat
  /-- Ghost: the number of executions of the body of the `j` loop so far. -/
  bitSteps : Nat
  deriving DecidableEq, Repr

/-- `void CRC_Init(void) { }`: the body is empty, so the program state `s`,
whatever it consists of, is handed back as it was. -/
def CRC_Init {σ : Type} (s : σ) : σ := s

/-- Line 32, `Crc ^= (pData[i] << 8);` for the byte `b = pData[i]`: the shift and
the exclusive or are computed in `int`, the result is stored in `Crc`. -/
def xorByte (Crc : Nat) (b : Byte) : Nat :=
  uint16 (Crc ^^^ (b.val <<< 8))

/-- Lines 37 to 44, the body of the `j` loop: test `Crc >> 15`, then shift, with
the polynomial `0x1021` folded in when the test is non-zero. -/
def bitStep (Crc : Nat) : Nat :=
  if Crc >>> 15 ≠ 0 then
    uint16 ((Crc <<< 1) ^^^ 0x1021)
  else
    uint16 (Crc <<< 1)

/-- Line 34, `for (int j = 0; j < 8; j++)`, entered with the given `j`. The
argument `n` bounds the number of remaining tests of `j < 8`; the loop is
always started with `n = 8 - j`. The result is the accumulator together with
the number of bodies executed. -/
def bitLoop : Nat → Nat → Nat → Nat → Nat × Nat
  | 0, _, Crc, count => (Crc, count)
  | n + 1, j, Crc, count =>
    if j < 8 then bitLoop n (j + 1) (bitStep Crc) (count + 1) else (Crc, count)

/-- Lines 32 to 45, the body of the `i` loop, followed by `i++`. The read
`pData[i]` is a list lookup that fails outside the buffer. -/
def byteStep (pData : List Byte) (s : Locals) : Outcome Locals :=
  match pData[s.i]? with
  | none => .fault (.outOfBounds s.i)
  | some b =>
    let r := bitLoop 8 0 (xorByte s.Crc b) s.bitSteps
    .ok { i := uint16 (s.i + 1), Crc := r.1, reads := s.reads ++ [s.i], bitSteps := r.2 }

/-- Line 30, `for (i = 0; i < Size; i++)`, resumed in state `s`. Each test of
`i < Size` costs one unit of fuel. -/
def byteLoop (pData : List Byte) (Size : Nat) : Nat → Locals → Outcome Locals
  | 0, _ => .fault .outOfFuel
  | fuel + 1, s =>
    if s.i < Size then
      match byteStep pData s with
      | .fault f => .fault f
      | .ok s1 => byteLoop pData Size fuel s1
    else
      .ok s

/-- The state in which the byte loop is entered: `Crc = 0;` (line 29) and
`i = 0`. -/
def entry : Locals := { i := 0, Crc := 0, reads := [], bitSteps := 0 }

/-- The run of `CRC_Calculate(pBuffer, Size)` up to the `return`, where `pData`
lists the readable bytes starting at `pBuffer`. The loop condition is tested at
most `Size + 1` times in a run without counter wraparound, which is the fuel
given. -/
def CRC_run (pData : List Byte) (Size : Nat) : Outcome Locals :=
  byteLoop pData Size (Size + 1) entry

/-- `uint16_t CRC_Calculate(const void *pBuffer, uint16_t Size)`: the value of
`return Crc;` (line 48). -/
def CRC_Calculate (pData : List Byte) (Size : Nat) : Outcome Nat :=
  match CRC_run pData Size with
  | .ok s => .ok s.Crc
  | .fault f => .fault f

/-- The effect of one pass of the byte loop on the accumulator, for the byte
`b = pData[i]`: line 32, then the body of the `j` loop eight times. -/
def crcByte (Crc : Nat) (b : Byte) : Nat :=
  bitStep^[8] (xorByte Crc b)

/-! ## The algorithm in the words of the specification -/

/-- Specification, step 2a: `crc XOR (b shifted left by 8 bits)`, within a
16-bit register. -/
def Spec.absorb (crc : Nat) (b : Byte) : Nat :=
  (crc ^^^ (b.val <<< 8)) % 2 ^ 16

/-- Specification, step 2b, one repetition: if bit 15 of `crc` is set, the
shifted and truncated value XOR `0x1021`, otherwise the shifted and truncated
value. -/
def Spec.divisionStep (crc : Nat) : Nat :=
  if crc.testBit 15 then ((crc <<< 1) % 2 ^ 16) ^^^ 0x1021 else (crc <<< 1) % 2 ^ 16

/-- Specification, step 2 for one byte: 2a, then 2b repeated 8 times. -/
def Spec.update (crc : Nat) (b : Byte) : Nat :=
  Spec.divisionStep^[8] (Spec.absorb crc b)

/-- Specification, `Calculate(buffer, length)`: `crc = 0`, step 2 for each byte
of `buffer[0..length)` in order, return `crc`. -/
def Spec.Calculate (buffer : List Byte) (length : Nat) : Nat :=
  (buffer.take length).foldl Spec.update 0

/-! ## Vocabulary of the algebraic properties -/

/-- Conversion of an `int` value to `uint8_t`, as performed by storing it in a
byte of a buffer. -/
def toByte (x : Nat) : Byte := ⟨x % 256, Nat.mod_lt x (by decide)⟩

/-- Exclusive or of two bytes. -/
def xorBytes (a b : Byte) : Byte := toByte (a.val ^^^ b.val)

/-- Bytewise exclusive or of two buffers. -/
def xorBuffers (A B : List Byte) : List Byte := List.zipWith xorBytes A B

/-- The byte `a` with bit `j` inverted. -/
def flipBit (a : Byte) (j : Nat) : Byte := toByte (a.val ^^^ (1 <<< j))

/-- Entry `x` of the 256-entry table: `T[x] = CRC_Calculate([x], 1)`. -/
def T (x : Byte) : Outcome Nat := CRC_Calculate [x] 1

/-- The table-driven update of the accumulator by the byte `b`:
`((crc << 8) mod 2 ^ 16) XOR T[(crc >> 8) XOR b]`. -/
def tableUpdate (crc : Nat) (b : Byte) : Outcome Nat :=
  match T (toByte ((crc >>> 8) ^^^ b.val)) with
  | .ok t => .ok (((crc <<< 8) % 2 ^ 16) ^^^ t)
  | .fault f => .fault f

/-! ## Arithmetic of one step -/

theorem uint16_lt (x : Nat) : uint16 x < 2 ^ 16 :=
  Nat.mod_lt _ (by decide)

theorem uint16_of_lt {x : Nat} (h : x < 2 ^ 16) : uint16 x = x :=
  Nat.mod_eq_of_lt h

theorem byte_shift_lt (b : Byte) : b.val <<< 8 < 2 ^ 16 := by
  have hb := b.isLt
  rw [Nat.shiftLeft_eq]
  omega

theorem xorByte_lt (Crc : Nat) (b : Byte) : xorByte Crc b < 2 ^ 16 :=
  uint16_lt _

theorem bitStep_lt (Crc : Nat) : bitStep Crc < 2 ^ 16 := by
  unfold bitStep
  split <;> exact uint16_lt _

theorem iterate_bitStep_lt (n : Nat) {Crc : Nat} (h : Crc < 2 ^ 16) :
    bitStep^[n] Crc < 2 ^ 16 := by
  cases n with
  | zero => simpa using h
  | succ n =>
    rw [Function.iterate_succ_apply']
    exact bitStep_lt _

theorem crcByte_lt (Crc : Nat) (b : Byte) : crcByte Crc b < 2 ^ 16 :=
  iterate_bitStep_lt 8 (xorByte_lt Crc b)

theorem foldl_crcByte_lt (l : List Byte) {Crc : Nat} (h : Crc < 2 ^ 16) :
    l.foldl crcByte Crc < 2 ^ 16 := by
  induction l generalizing Crc with
  | nil => simpa using h
  | cons b l ih => exact ih (crcByte_lt Crc b)

/-- For a 16-bit value the test `Crc >> 15` is non-zero exactly when bit 15 is set. -/
theorem shift15_ne_zero_iff {Crc : Nat} (h : Crc < 2 ^ 16) :
    Crc >>> 15 ≠ 0 ↔ Crc.testBit 15 = true := by
  rw [Nat.shiftRight_eq_div_pow, Nat.testBit_to_div_mod, decide_eq_true_eq]
  omega

/-- Truncation to 16 bits commutes with folding in the polynomial. -/
theorem xor_poly_mod (x : Nat) :
    (x ^^^ 0x1021) % 2 ^ 16 = (x % 2 ^ 16) ^^^ 0x1021 := by
  apply Nat.eq_of_testBit_eq
  intro k
  simp only [Nat.testBit_mod_two_pow, Nat.testBit_xor]
  by_cases hk : k < 16
  · simp [hk]
  · have h2 : (0x1021 : Nat).testBit k = false :=
      Nat.testBit_lt_two_pow (lt_of_lt_of_le (by decide : (0x1021 : Nat) < 2 ^ 16)
        (Nat.pow_le_pow_right (by decide) (not_lt.mp hk)))
    simp [hk, h2]

theorem bitStep_eq_divisionStep {Crc : Nat} (h : Crc < 2 ^ 16) :
    bitStep Crc = Spec.divisionStep Crc := by
  unfold bitStep Spec.divisionStep uint16
  by_cases hb : Crc.testBit 15 = true
  · rw [if_pos ((shift15_ne_zero_iff h).mpr hb), if_pos hb, xor_poly_mod]
  · rw [if_neg (fun hc => hb ((shift15_ne_zero_iff h).mp hc)), if_neg hb]

theorem iterate_bitStep_eq (n : Nat) {Crc : Nat} (h : Crc < 2 ^ 16) :
    bitStep^[n] Crc = Spec.divisionStep^[n] Crc := by
  induction n with
  | zero => rfl
  | succ n ih =>
    rw [Function.iterate_succ_apply', Function.iterate_succ_apply', ← ih,
      bitStep_eq_divisionStep (iterate_bitStep_lt n h)]

theorem crcByte_eq_update (Crc : Nat) (b : Byte) : crcByte Crc b = Spec.update Crc b :=
  iterate_bitStep_eq 8 (xorByte_lt Crc b)

theorem foldl_crcByte_eq (l : List Byte) (Crc : Nat) :
    l.foldl crcByte Crc = l.foldl Spec.update Crc := by
  have h : crcByte = Spec.update := funext fun c => funext fun b => crcByte_eq_update c b
  rw [h]

/-! ## The loops -/

/-- The `j` loop runs its body exactly eight times. -/
theorem bitLoop_eight (Crc count : Nat) :
    bitLoop 8 0 Crc count = (bitStep^[8] Crc, count + 8) := rfl

/-- One pass of the byte loop at an index inside the buffer. -/
theorem byteStep_ok (pData : List Byte) (s : Locals) (h : s.i < pData.length) :
    byteStep pData s = .ok
      { i := uint16 (s.i + 1), Crc := crcByte s.Crc pData[s.i],
        reads := s.reads ++ [s.i], bitSteps := s.bitSteps + 8 } := by
  unfold byteStep
  rw [List.getElem?_eq_getElem h]
  simp only [bitLoop_eight, crcByte]

/-- One pass of the byte loop at an index outside the buffer. -/
theorem byteStep_fault (pData : List Byte) (s : Locals) (h : pData.length ≤ s.i) :
    byteStep pData s = .fault (.outOfBounds s.i) := by
  unfold byteStep
  rw [List.getElem?_eq_none h]

/-- The byte loop, resumed `k` bytes before `Size` with more than `k` units of
fuel, ends with `i = Size`, having folded the `k` remaining bytes into the
accumulator, read exactly the indices `i, …, Size - 1` and run `8 * k`
bit steps. -/
theorem byteLoop_run (pData : List Byte) (Size : Nat) (hS : Size < 2 ^ 16)
    (hlen : Size ≤ pData.length) :
    ∀ (k fuel : Nat) (s : Locals), s.i + k = Size → k < fuel →
      byteLoop pData Size fuel s = .ok
        { i := Size, Crc := ((pData.drop s.i).take k).foldl crcByte s.Crc,
          reads := s.reads ++ List.range' s.i k, bitSteps := s.bitSteps + 8 * k } := by
  intro k
  induction k with
  | zero =>
    intro fuel s hi hf
    obtain ⟨fuel, rfl⟩ : ∃ f, fuel = f + 1 := ⟨fuel - 1, by omega⟩
    have hi' : s.i = Size := by omega
    cases s
    simp_all [byteLoop]
  | succ k ih =>
    intro fuel s hi hf
    obtain ⟨fuel, rfl⟩ : ∃ f, fuel = f + 1 := ⟨fuel - 1, by omega⟩
    have hlt : s.i < Size := by omega
    have hin : s.i < pData.length := by omega
    have hnext : uint16 (s.i + 1) = s.i + 1 := uint16_of_lt (by omega)
    rw [byteLoop, if_pos hlt, byteStep_ok pData s hin]
    simp only [hnext]
    rw [ih fuel _ (by simp only; omega) (by omega)]
    simp only [List.drop_eq_getElem_cons hin, List.take_succ_cons, List.foldl_cons,
      List.range'_succ, List.append_assoc, List.singleton_append]
    rw [show s.bitSteps + 8 + 8 * k = s.bitSteps + 8 * (k + 1) by omega]

/-- The run of `CRC_Calculate` on a valid call. -/
theorem CRC_run_valid (pData : List Byte) (Size : Nat) (hS : Size < 2 ^ 16)
    (hlen : Size ≤ pData.length) :
    CRC_run pData Size = .ok
      { i := Size, Crc := (pData.take Size).foldl crcByte 0,
        reads := List.range' 0 Size, bitSteps := 8 * Size } := by
  unfold CRC_run
  rw [byteLoop_run pData Size hS hlen Size (Size + 1) entry (by simp [entry]) (by omega)]
  simp [entry]

/-- The value returned by `CRC_Calculate` on a valid call. -/
theorem CRC_Calculate_valid (pData : List Byte) (Size : Nat) (hS : Size < 2 ^ 16)
    (hlen : Size ≤ pData.length) :
    CRC_Calculate pData Size = .ok ((pData.take Size).foldl crcByte 0) := by
  unfold CRC_Calculate
  rw [CRC_run_valid pData Size hS hlen]

/-- The byte loop reads the buffer only below `Size`: two buffers that agree
there drive it identically, from any state and with any fuel. -/
theorem byteLoop_congr (A B : List Byte) (Size : Nat)
    (hAB : ∀ i, i < Size → A[i]? = B[i]?) :
    ∀ (fuel : Nat) (s : Locals), byteLoop A Size fuel s = byteLoop B Size fuel s := by
  intro fuel
  induction fuel with
  | zero => intro s; rfl
  | succ fuel ih =>
    intro s
    by_cases hlt : s.i < Size
    · have hstep : byteStep A s = byteStep B s := by
        unfold byteStep
        rw [hAB s.i hlt]
      rw [byteLoop, byteLoop, if_pos hlt, if_pos hlt, hstep]
      cases byteStep B s with
      | ok s1 => exact ih s1
      | fault f => rfl
    · rw [byteLoop, byteLoop, if_neg hlt, if_neg hlt]

/-- The byte loop keeps the accumulator below `2 ^ 16`, from any state and
with any fuel. -/
theorem byteLoop_Crc_lt (pData : List Byte) (Size : Nat) :
    ∀ (fuel : Nat) (s t : Locals), s.Crc < 2 ^ 16 →
      byteLoop pData Size fuel s = .ok t → t.Crc < 2 ^ 16 := by
  intro fuel
  induction fuel with
  | zero => intro s t _ h; simp [byteLoop] at h
  | succ fuel ih =>
    intro s t hs h
    rw [byteLoop] at h
    by_cases hlt : s.i < Size
    · rw [if_pos hlt] at h
      by_cases hin : s.i < pData.length
      · rw [byteStep_ok pData s hin] at h
        exact ih _ t (crcByte_lt _ _) h
      · rw [byteStep_fault pData s (not_lt.mp hin)] at h
        simp at h
    · rw [if_neg hlt] at h
      cases h
      exact hs

/-- Whatever `CRC_Calculate` returns is below `2 ^ 16`. -/
theorem CRC_Calculate_lt (pData : List Byte) (Size crc : Nat)
    (h : CRC_Calculate pData Size = .ok crc) : crc < 2 ^ 16 := by
  unfold CRC_Calculate CRC_run at h
  cases hrun : byteLoop pData Size (Size + 1) entry with
  | ok t =>
    rw [hrun] at h
    cases h
    exact byteLoop_Crc_lt pData Size _ entry t (by decide) hrun
  | fault f =>
    rw [hrun] at h
    cases h

/-! ## Linearity over exclusive or -/

theorem shiftLeft_xor (a b k : Nat) : (a ^^^ b) <<< k = (a <<< k) ^^^ (b <<< k) := by
  apply Nat.eq_of_testBit_eq
  intro i
  simp only [Nat.testBit_shiftLeft, Nat.testBit_xor]
  cases decide (i ≥ k) <;> simp

theorem xor_mod_pow (a b n : Nat) : (a ^^^ b) % 2 ^ n = (a % 2 ^ n) ^^^ (b % 2 ^ n) := by
  apply Nat.eq_of_testBit_eq
  intro i
  simp only [Nat.testBit_mod_two_pow, Nat.testBit_xor]
  cases decide (i < n) <;> simp

theorem xor_left_comm (a b c : Nat) : a ^^^ (b ^^^ c) = b ^^^ (a ^^^ c) := by
  rw [← Nat.xor_assoc, Nat.xor_comm a b, Nat.xor_assoc]

theorem uint16_xor (a b : Nat) : uint16 (a ^^^ b) = uint16 a ^^^ uint16 b :=
  xor_mod_pow a b 16

/-- On 16-bit values the bit step is the truncated shift, with the polynomial
folded in when bit 15 was set. -/
theorem bitStep_eq {Crc : Nat} (h : Crc < 2 ^ 16) :
    bitStep Crc = uint16 (Crc <<< 1) ^^^ (if Crc.testBit 15 = true then 0x1021 else 0) := by
  rw [bitStep_eq_divisionStep h]
  unfold Spec.divisionStep uint16
  split <;> simp

/-- The bit step is linear over exclusive or on 16-bit values. -/
theorem bitStep_xor {a b : Nat} (ha : a < 2 ^ 16) (hb : b < 2 ^ 16) :
    bitStep (a ^^^ b) = bitStep a ^^^ bitStep b := by
  rw [bitStep_eq ha, bitStep_eq hb, bitStep_eq (Nat.xor_lt_two_pow ha hb), shiftLeft_xor,
    uint16_xor, Nat.testBit_xor]
  cases a.testBit 15 <;> cases b.testBit 15 <;>
    simp [Nat.xor_assoc, Nat.xor_comm, xor_left_comm, Nat.xor_cancel_left]

theorem iterate_bitStep_xor (n : Nat) {a b : Nat} (ha : a < 2 ^ 16) (hb : b < 2 ^ 16) :
    bitStep^[n] (a ^^^ b) = bitStep^[n] a ^^^ bitStep^[n] b := by
  induction n with
  | zero => rfl
  | succ n ih =>
    rw [Function.iterate_succ_apply', Function.iterate_succ_apply',
      Function.iterate_succ_apply', ih,
      bitStep_xor (iterate_bitStep_lt n ha) (iterate_bitStep_lt n hb)]

/-- Only the zero accumulator is taken to zero by a bit step. -/
theorem bitStep_eq_zero {a : Nat} (ha : a < 2 ^ 16) (h : bitStep a = 0) : a = 0 := by
  rw [bitStep_eq ha] at h
  unfold uint16 at h
  rw [Nat.shiftLeft_eq] at h
  by_cases hb : a.testBit 15 = true
  · rw [if_pos hb, Nat.xor_eq_zero] at h
    omega
  · rw [if_neg hb, Nat.xor_zero] at h
    rw [Nat.testBit_to_div_mod, decide_eq_true_eq] at hb
    omega

theorem iterate_bitStep_eq_zero (n : Nat) {a : Nat} (ha : a < 2 ^ 16)
    (h : bitStep^[n] a = 0) : a = 0 := by
  induction n with
  | zero => simpa using h
  | succ n ih =>
    rw [Function.iterate_succ_apply'] at h
    exact ih (bitStep_eq_zero (iterate_bitStep_lt n ha) h)

/-- Eight bit steps are injective on 16-bit values. -/
theorem iterate_bitStep_inj (n : Nat) {a b : Nat} (ha : a < 2 ^ 16) (hb : b < 2 ^ 16)
    (h : bitStep^[n] a = bitStep^[n] b) : a = b := by
  have hx : bitStep^[n] (a ^^^ b) = 0 := by
    rw [iterate_bitStep_xor n ha hb, h, Nat.xor_self]
  exact Nat.xor_eq_zero.mp (iterate_bitStep_eq_zero n (Nat.xor_lt_two_pow ha hb) hx)

set_option maxRecDepth 100000 in
/-- Eight bit steps move a value below 256 into the high byte without folding
in the polynomial. -/
theorem iterate_bitStep_low (x : Byte) : bitStep^[8] x.val = x.val <<< 8 := by
  revert x
  decide

theorem bitStep_zero_iterate (n : Nat) : bitStep^[n] 0 = 0 :=
  Function.iterate_fixed rfl n

/-! ## Bytes and buffers -/

theorem toByte_val (x : Nat) : (toByte x).val = x % 256 := rfl

theorem toByte_val_of_lt {x : Nat} (h : x < 256) : (toByte x).val = x :=
  Nat.mod_eq_of_lt h

theorem xorBytes_val (a b : Byte) : (xorBytes a b).val = a.val ^^^ b.val :=
  toByte_val_of_lt (Nat.xor_lt_two_pow (n := 8) a.isLt b.isLt)

theorem xorByte_of_lt {Crc : Nat} (h : Crc < 2 ^ 16) (b : Byte) :
    xorByte Crc b = Crc ^^^ (b.val <<< 8) :=
  uint16_of_lt (Nat.xor_lt_two_pow h (byte_shift_lt b))

/-- Line 32 is linear over exclusive or, in the accumulator and the byte together. -/
theorem xorByte_xor (a c : Nat) (b d : Byte) :
    xorByte (a ^^^ c) (xorBytes b d) = xorByte a b ^^^ xorByte c d := by
  unfold xorByte
  rw [xorBytes_val, shiftLeft_xor, ← uint16_xor]
  congr 1
  simp only [Nat.xor_assoc, xor_left_comm (b.val <<< 8)]

/-- One pass of the byte loop is linear over exclusive or. -/
theorem crcByte_xor (a c : Nat) (b d : Byte) :
    crcByte (a ^^^ c) (xorBytes b d) = crcByte a b ^^^ crcByte c d := by
  unfold crcByte
  rw [xorByte_xor, iterate_bitStep_xor 8 (xorByte_lt a b) (xorByte_lt c d)]

theorem foldl_crcByte_xor (A : List Byte) :
    ∀ (B : List Byte) (a c : Nat), A.length = B.length →
      (xorBuffers A B).foldl crcByte (a ^^^ c) = A.foldl crcByte a ^^^ B.foldl crcByte c := by
  induction A with
  | nil =>
    intro B a c h
    cases B with
    | nil => rfl
    | cons d B => simp at h
  | cons b A ih =>
    intro B a c h
    cases B with
    | nil => simp at h
    | cons d B =>
      simp only [xorBuffers, List.zipWith_cons_cons, List.foldl_cons]
      rw [crcByte_xor]
      exact ih B _ _ (by simpa using h)

/-- One pass of the byte loop is injective in the accumulator. -/
theorem crcByte_inj_acc {a c : Nat} (ha : a < 2 ^ 16) (hc : c < 2 ^ 16) (b : Byte)
    (h : crcByte a b = crcByte c b) : a = c := by
  have hx := iterate_bitStep_inj 8 (xorByte_lt a b) (xorByte_lt c b) h
  rw [xorByte_of_lt ha, xorByte_of_lt hc] at hx
  exact Nat.xor_left_injective hx

/-- One pass of the byte loop is injective in the byte. -/
theorem crcByte_inj_byte {a : Nat} (ha : a < 2 ^ 16) (b d : Byte)
    (h : crcByte a b = crcByte a d) : b = d := by
  have hx := iterate_bitStep_inj 8 (xorByte_lt a b) (xorByte_lt a d) h
  rw [xorByte_of_lt ha, xorByte_of_lt ha, Nat.xor_right_inj, Nat.shiftLeft_eq,
    Nat.shiftLeft_eq] at hx
  exact Fin.ext (by omega)

theorem foldl_crcByte_inj (l : List Byte) :
    ∀ {a c : Nat}, a < 2 ^ 16 → c < 2 ^ 16 →
      l.foldl crcByte a = l.foldl crcByte c → a = c := by
  induction l with
  | nil => intro a c _ _ h; simpa using h
  | cons b l ih =>
    intro a c ha hc h
    exact crcByte_inj_acc ha hc b (ih (crcByte_lt a b) (crcByte_lt c b) h)

theorem crcByte_zero_zero : crcByte 0 0 = 0 := by decide

theorem foldl_crcByte_zeros (k : Nat) :
    (List.replicate k (0 : Byte)).foldl crcByte 0 = 0 := by
  induction k with
  | zero => rfl
  | succ k ih => rw [List.replicate_succ, List.foldl_cons, crcByte_zero_zero, ih]

/-- A value is the exclusive or of its low byte and its shifted upper part. -/
theorem xor_high_part (c : Nat) : c ^^^ ((c >>> 8) <<< 8) = c % 2 ^ 8 := by
  apply Nat.eq_of_testBit_eq
  intro i
  simp only [Nat.testBit_xor, Nat.testBit_shiftLeft, Nat.testBit_shiftRight,
    Nat.testBit_mod_two_pow]
  by_cases hi : i < 8
  · have hge : ¬ i ≥ 8 := by omega
    simp [hi, hge]
  · have h8 : 8 + (i - 8) = i := by omega
    simp [hi, h8, not_lt.mp hi]

/-- After the high byte of a 16-bit accumulator has been absorbed, the
accumulator holds its former low byte in the high position. -/
theorem crcByte_high {c : Nat} (hc : c < 2 ^ 16) :
    crcByte c (toByte (c >>> 8)) = (c % 256) <<< 8 := by
  have hhi : c >>> 8 < 256 := by
    rw [Nat.shiftRight_eq_div_pow]
    omega
  unfold crcByte
  rw [xorByte_of_lt hc, toByte_val_of_lt hhi, xor_high_part]
  exact iterate_bitStep_low (toByte c)

/-- Absorbing the two bytes of a 16-bit accumulator, high byte first, clears it. -/
theorem crcByte_own_bytes {c : Nat} (hc : c < 2 ^ 16) :
    crcByte (crcByte c (toByte (c >>> 8))) (toByte (c &&& 0xFF)) = 0 := by
  have hlo : (toByte (c &&& 0xFF)).val = c % 256 := by
    rw [toByte_val]
    have := Nat.and_pow_two_sub_one_eq_mod c 8
    simp only [Nat.reducePow, Nat.add_one_sub_one] at this
    omega
  rw [crcByte_high hc]
  unfold crcByte xorByte
  rw [hlo, Nat.xor_self]
  rfl

/-- The entry of the table is one pass of the byte loop from the zero accumulator. -/
theorem T_eq (x : Byte) : T x = .ok (bitStep^[8] (x.val <<< 8)) := by
  unfold T
  rw [CRC_Calculate_valid [x] 1 (by decide) (by simp)]
  simp only [List.take_succ_cons, List.take_zero, List.foldl_cons, List.foldl_nil, crcByte]
  rw [xorByte_of_lt (by decide), Nat.zero_xor]

/-- One pass of the byte loop splits into the shifted low byte and the pass of
the high byte, combined with the message byte, from the zero accumulator. -/
theorem crcByte_split {crc : Nat} (h : crc < 2 ^ 16) (b : Byte) :
    crcByte crc b =
      ((crc <<< 8) % 2 ^ 16) ^^^ bitStep^[8] ((toByte ((crc >>> 8) ^^^ b.val)).val <<< 8) := by
  have hhi : crc >>> 8 < 2 ^ 8 := by
    rw [Nat.shiftRight_eq_div_pow]
    omega
  have hidx : (crc >>> 8) ^^^ b.val < 256 := Nat.xor_lt_two_pow (n := 8) hhi b.isLt
  have hlow : crc % 2 ^ 8 < 2 ^ 16 := by omega
  have hsplit : crc ^^^ (b.val <<< 8) = (crc % 2 ^ 8) ^^^ (((crc >>> 8) ^^^ b.val) <<< 8) := by
    rw [← xor_high_part crc, shiftLeft_xor, Nat.xor_assoc, Nat.xor_cancel_left]
  have hidx16 : ((crc >>> 8) ^^^ b.val) <<< 8 < 2 ^ 16 := by
    rw [Nat.shiftLeft_eq]
    omega
  unfold crcByte
  rw [xorByte_of_lt h, hsplit, iterate_bitStep_xor 8 hlow hidx16, toByte_val_of_lt hidx]
  congr 1
  rw [show crc % 2 ^ 8 = (toByte crc).val from rfl, iterate_bitStep_low, toByte_val,
    Nat.shiftLeft_eq, Nat.shiftLeft_eq]
  omega

/-- The byte loop, resumed at most `fuel - 1` bytes before `Size`, never runs
out of fuel, whatever the buffer holds. -/
theorem byteLoop_fuel (pData : List Byte) (Size : Nat) (hS : Size < 2 ^ 16) :
    ∀ (k fuel : Nat) (s : Locals), s.i + k = Size → k < fuel →
      byteLoop pData Size fuel s ≠ .fault .outOfFuel := by
  intro k
  induction k with
  | zero =>
    intro fuel s hi hf
    obtain ⟨fuel, rfl⟩ : ∃ f, fuel = f + 1 := ⟨fuel - 1, by omega⟩
    rw [byteLoop, if_neg (by omega)]
    simp
  | succ k ih =>
    intro fuel s hi hf
    obtain ⟨fuel, rfl⟩ : ∃ f, fuel = f + 1 := ⟨fuel - 1, by omega⟩
    rw [byteLoop, if_pos (by omega)]
    by_cases hin : s.i < pData.length
    · rw [byteStep_ok pData s hin]
      exact ih fuel _ (by simp only; rw [uint16_of_lt (by omega)]; omega) (by omega)
    · rw [byteStep_fault pData s (not_lt.mp hin)]
      simp

/-! ## Properties stated by the specification -/

/-- Claim C1: for every buffer and every length `Size` in `0..65535` with at
least `Size` readable bytes, `CRC_Calculate` returns the value of the reference
algorithm of the specification (zero start value, for each byte XOR of the byte
shifted left by 8, then 8 shift steps with polynomial `0x1021`). -/
theorem CRC_Calculate_refines_spec (pData : List Byte) (Size : Nat)
    (hS : Size < 2 ^ 16) (hlen : Size ≤ pData.length) :
    CRC_Calculate pData Size = .ok (Spec.Calculate pData Size) := by
  rw [CRC_Calculate_valid pData Size hS hlen, foldl_crcByte_eq]
  rfl

set_option maxRecDepth 100000 in
/-- Claim C1, instance: three readable bytes, of which two are summed. -/
theorem CRC_Calculate_refines_spec_witness :
    (2 < 2 ^ 16 ∧ 2 ≤ ([0x12, 0x34, 0x56] : List Byte).length) ∧
      CRC_Calculate [0x12, 0x34, 0x56] 2 = .ok (Spec.Calculate [0x12, 0x34, 0x56] 2) :=
  ⟨⟨by decide, by decide⟩,
    CRC_Calculate_refines_spec [0x12, 0x34, 0x56] 2 (by decide) (by decide)⟩

set_option maxRecDepth 100000 in
/-- Claim C2, as stated, fails: over the nine bytes of the string `123456789`
the function does not return `0x29B1`. -/
theorem check_string_ne_29B1 :
    CRC_Calculate [0x31, 0x32, 0x33, 0x34, 0x35, 0x36, 0x37, 0x38, 0x39] 9 ≠ .ok 0x29B1 := by
  decide

set_option maxRecDepth 100000 in
/-- Claim C2, amended: over the nine bytes of the string `123456789`, with
length 9, `CRC_Calculate` returns `0x31C3`. -/
theorem check_string_eq_31C3 :
    CRC_Calculate [0x31, 0x32, 0x33, 0x34, 0x35, 0x36, 0x37, 0x38, 0x39] 9 = .ok 0x31C3 := by
  decide

/-- Claim C3: for every buffer, `CRC_Calculate` with length 0 returns 0; the
byte loop is not entered, so nothing is read and no bit step runs. -/
theorem CRC_Calculate_zero_length (pData : List Byte) :
    CRC_Calculate pData 0 = .ok 0 ∧ CRC_run pData 0 = .ok entry :=
  ⟨rfl, rfl⟩

/-- Claim C4: for every byte `b`, `CRC_Calculate` of the one-byte buffer `[b]`
is the 16-bit value `b << 8` taken through exactly 8 polynomial-division
steps. -/
theorem CRC_Calculate_single_byte (b : Byte) :
    CRC_Calculate [b] 1 = .ok (Spec.divisionStep^[8] (b.val <<< 8)) := by
  rw [CRC_Calculate_valid [b] 1 (by decide) (by simp)]
  have habsorb : xorByte 0 b = b.val <<< 8 := by
    unfold xorByte
    rw [Nat.zero_xor, uint16_of_lt (byte_shift_lt b)]
  simp only [List.take_succ_cons, List.take_zero, List.foldl_cons, List.foldl_nil, crcByte,
    habsorb]
  rw [iterate_bitStep_eq 8 (byte_shift_lt b)]

set_option maxRecDepth 100000 in
/-- Claim C5: checksums of segments do not combine by plain XOR; for `A = [0x01]`
and `B = [0x00]` the checksum of `A ++ B` is `0x3331`, while the checksums of `A`
and `B` are `0x1021` and `0`. -/
theorem segments_not_xor_combinable :
    ∃ (A B : List Byte) (x y z : Nat),
      CRC_Calculate (A ++ B) (A.length + B.length) = .ok x ∧
      CRC_Calculate A A.length = .ok y ∧
      CRC_Calculate B B.length = .ok z ∧
      x ≠ y ^^^ z :=
  ⟨[0x01], [0x00], 0x3331, 0x1021, 0, by decide, by decide, by decide, by decide⟩

/-- Claim C6: the result depends only on the first `Size` bytes. Two buffers
that agree at every index below `Size` give the same result and the same run,
whatever follows in either of them; identical inputs are the special case. -/
theorem CRC_Calculate_prefix_only (A B : List Byte) (Size : Nat)
    (hAB : ∀ i, i < Size → A[i]? = B[i]?) :
    CRC_Calculate A Size = CRC_Calculate B Size ∧ CRC_run A Size = CRC_run B Size := by
  have hrun : CRC_run A Size = CRC_run B Size :=
    byteLoop_congr A B Size hAB (Size + 1) entry
  exact ⟨by unfold CRC_Calculate; rw [hrun], hrun⟩

set_option maxRecDepth 100000 in
/-- Claim C6, instance: two buffers of different length that share their first
two bytes. -/
theorem CRC_Calculate_prefix_only_witness :
    (∀ i, i < 2 → ([0xAB, 0xCD, 0x01] : List Byte)[i]? = ([0xAB, 0xCD, 0xFE, 0x02] : List Byte)[i]?) ∧
      (CRC_Calculate [0xAB, 0xCD, 0x01] 2 = CRC_Calculate [0xAB, 0xCD, 0xFE, 0x02] 2 ∧
        CRC_run [0xAB, 0xCD, 0x01] 2 = CRC_run [0xAB, 0xCD, 0xFE, 0x02] 2) :=
  ⟨by decide, CRC_Calculate_prefix_only [0xAB, 0xCD, 0x01] [0xAB, 0xCD, 0xFE, 0x02] 2 (by decide)⟩

/-- Claim C7: `CRC_Init` changes no state. After any number `k` of calls the
program state is what it was, so `CRC_Calculate` over any buffer held in that
state (`view`) and any length returns what it returns without the calls. -/
theorem CRC_Init_noop {σ : Type} (s : σ) (k : Nat) (view : σ → List Byte) (Size : Nat) :
    CRC_Init^[k] s = s ∧
      CRC_Calculate (view (CRC_Init^[k] s)) Size = CRC_Calculate (view s) Size := by
  have h : CRC_Init^[k] s = s := Function.iterate_fixed rfl k
  exact ⟨h, by rw [h]⟩

/-- Claim C8: on a valid call (`Size` in `0..65535`, at least `Size` readable
bytes) the run ends normally, every read `pData[i]` it performed has `i < Size`
and lies inside the buffer, and a checksum is returned. -/
theorem CRC_Calculate_total (pData : List Byte) (Size : Nat)
    (hS : Size < 2 ^ 16) (hlen : Size ≤ pData.length) :
    ∃ s : Locals, CRC_run pData Size = .ok s ∧
      (∀ i ∈ s.reads, i < Size ∧ i < pData.length) ∧
      CRC_Calculate pData Size = .ok s.Crc := by
  refine ⟨_, CRC_run_valid pData Size hS hlen, ?_, ?_⟩
  · intro i hi
    have hi' : i < Size := by simpa [List.mem_range'_1] using hi
    exact ⟨hi', lt_of_lt_of_le hi' hlen⟩
  · exact CRC_Calculate_valid pData Size hS hlen

set_option maxRecDepth 100000 in
/-- Claim C8, instance: a call over all four bytes of a buffer. -/
theorem CRC_Calculate_total_witness :
    (4 < 2 ^ 16 ∧ 4 ≤ ([0xDE, 0xAD, 0xBE, 0xEF] : List Byte).length) ∧
      ∃ s : Locals, CRC_run [0xDE, 0xAD, 0xBE, 0xEF] 4 = .ok s ∧
        (∀ i ∈ s.reads, i < 4 ∧ i < ([0xDE, 0xAD, 0xBE, 0xEF] : List Byte).length) ∧
        CRC_Calculate [0xDE, 0xAD, 0xBE, 0xEF] 4 = .ok s.Crc :=
  ⟨⟨by decide, by decide⟩,
    CRC_Calculate_total [0xDE, 0xAD, 0xBE, 0xEF] 4 (by decide) (by decide)⟩

/-- Claim C9, as stated, fails: it is not the case that the checksum of the
single zero byte differs from zero. -/
theorem zero_byte_not_nonzero : ¬ (CRC_Calculate [0x00] 1 ≠ .ok 0x0000) := by
  decide

/-- Claim C9, amended: the checksum of the single zero byte is zero. -/
theorem zero_byte_eq_zero : CRC_Calculate [0x00] 1 = .ok 0x0000 := by
  decide

/-- Claim C10: the accumulator stays a 16-bit quantity and the promoted C
arithmetic agrees with the truncation of the specification. For a 16-bit `Crc`
and a byte `b`: `b << 8` is below `2 ^ 16` and line 32 discards no bits; the
test `Crc >> 15` is non-zero exactly when bit 15 is set; reducing
`(Crc << 1) ^ 0x1021` on assignment equals truncating the shift first and then
folding in `0x1021`, the value before reduction being below `2 ^ 17`; each
assignment leaves a value below `2 ^ 16`; lines 32 and 37 to 44 compute what
steps 2a and 2b of the specification say; and every returned value is below
`2 ^ 16`. -/
theorem accumulator_is_16_bit (Crc : Nat) (b : Byte) (h : Crc < 2 ^ 16) :
    b.val <<< 8 < 2 ^ 16 ∧
      xorByte Crc b = Crc ^^^ (b.val <<< 8) ∧
      (Crc >>> 15 ≠ 0 ↔ Crc.testBit 15 = true) ∧
      (Crc <<< 1) ^^^ 0x1021 < 2 ^ 17 ∧
      uint16 ((Crc <<< 1) ^^^ 0x1021) = ((Crc <<< 1) % 2 ^ 16) ^^^ 0x1021 ∧
      xorByte Crc b < 2 ^ 16 ∧
      bitStep Crc < 2 ^ 16 ∧
      (∀ n, bitStep^[n] (xorByte Crc b) < 2 ^ 16) ∧
      xorByte Crc b = Spec.absorb Crc b ∧
      bitStep Crc = Spec.divisionStep Crc ∧
      (∀ (pData : List Byte) (Size crc : Nat),
        CRC_Calculate pData Size = .ok crc → crc < 2 ^ 16) := by
  have hshift : Crc <<< 1 < 2 ^ 17 := by
    rw [Nat.shiftLeft_eq]
    omega
  refine ⟨byte_shift_lt b, ?_, shift15_ne_zero_iff h, ?_, xor_poly_mod _, xorByte_lt Crc b,
    bitStep_lt Crc, fun n => iterate_bitStep_lt n (xorByte_lt Crc b), rfl,
    bitStep_eq_divisionStep h, CRC_Calculate_lt⟩
  · exact uint16_of_lt (Nat.xor_lt_two_pow h (byte_shift_lt b))
  · exact Nat.xor_lt_two_pow hshift (by decide)

/-- Claim C10, instance: an accumulator with bit 15 set and the byte `0xFF`. -/
theorem accumulator_is_16_bit_witness :
    0x8001 < 2 ^ 16 ∧
      ((0xFF : Byte).val <<< 8 < 2 ^ 16 ∧
      xorByte 0x8001 0xFF = 0x8001 ^^^ ((0xFF : Byte).val <<< 8) ∧
      (0x8001 >>> 15 ≠ 0 ↔ (0x8001 : Nat).testBit 15 = true) ∧
      (0x8001 <<< 1) ^^^ 0x1021 < 2 ^ 17 ∧
      uint16 ((0x8001 <<< 1) ^^^ 0x1021) = ((0x8001 <<< 1) % 2 ^ 16) ^^^ 0x1021 ∧
      xorByte 0x8001 0xFF < 2 ^ 16 ∧
      bitStep 0x8001 < 2 ^ 16 ∧
      (∀ n, bitStep^[n] (xorByte 0x8001 0xFF) < 2 ^ 16) ∧
      xorByte 0x8001 0xFF = Spec.absorb 0x8001 0xFF ∧
      bitStep 0x8001 = Spec.divisionStep 0x8001 ∧
      (∀ (pData : List Byte) (Size crc : Nat),
        CRC_Calculate pData Size = .ok crc → crc < 2 ^ 16)) :=
  ⟨by decide, accumulator_is_16_bit 0x8001 0xFF (by decide)⟩

/-- Claim C11: for every `Size` in `0..65535`, the maximum included, the byte
loop ends without using up any fuel budget above `Size`, whatever the buffer;
on a valid call the counter `i` takes exactly the values `0, 1, …, Size - 1`
inside the loop, `i++` never wraps, the loop is left with `i = Size`, and
exactly `Size` passes of 8 bit steps each are made. -/
theorem byte_loop_terminates (pData : List Byte) (Size : Nat) (hS : Size < 2 ^ 16) :
    CRC_run pData Size ≠ .fault .outOfFuel ∧
      (Size ≤ pData.length →
        ∃ s : Locals, CRC_run pData Size = .ok s ∧
          (∀ fuel, Size < fuel → byteLoop pData Size fuel entry = .ok s) ∧
          s.reads = List.range Size ∧
          s.reads.length = Size ∧
          (∀ i ∈ s.reads, uint16 (i + 1) = i + 1) ∧
          s.i = Size ∧
          s.bitSteps = 8 * Size) := by
  refine ⟨byteLoop_fuel pData Size hS Size (Size + 1) entry (by simp [entry]) (by omega), ?_⟩
  intro hlen
  refine ⟨_, CRC_run_valid pData Size hS hlen, ?_, ?_, ?_, ?_, rfl, rfl⟩
  · intro fuel hf
    rw [byteLoop_run pData Size hS hlen Size fuel entry (by simp [entry]) hf]
    simp [entry]
  · simp only [List.range_eq_range']
  · simp
  · intro i hi
    have hi' : i < Size := by simpa [List.mem_range'_1] using hi
    exact uint16_of_lt (by omega)

/-- Claim C11, instance: the maximum length 65535 over a buffer of 65535 bytes. -/
theorem byte_loop_terminates_witness :
    (65535 < 2 ^ 16 ∧ 65535 ≤ (List.replicate 65535 (0 : Byte)).length) ∧
      CRC_run (List.replicate 65535 (0 : Byte)) 65535 ≠ .fault .outOfFuel ∧
      ∃ s : Locals, CRC_run (List.replicate 65535 (0 : Byte)) 65535 = .ok s ∧
        (∀ fuel, 65535 < fuel →
          byteLoop (List.replicate 65535 (0 : Byte)) 65535 fuel entry = .ok s) ∧
        s.reads = List.range 65535 ∧
        s.reads.length = 65535 ∧
        (∀ i ∈ s.reads, uint16 (i + 1) = i + 1) ∧
        s.i = 65535 ∧
        s.bitSteps = 8 * 65535 :=
  ⟨⟨by decide, le_of_eq (List.length_replicate 65535 (0 : Byte)).symm⟩,
    (byte_loop_terminates (List.replicate 65535 (0 : Byte)) 65535 (by decide)).1,
    (byte_loop_terminates (List.replicate 65535 (0 : Byte)) 65535 (by decide)).2
      (le_of_eq (List.length_replicate 65535 (0 : Byte)).symm)⟩

/-- Claim C12: a buffer followed by its own checksum, high byte first, has
checksum zero, for every buffer of at most 65533 bytes. -/
theorem own_checksum_appended (A : List Byte) (hn : A.length ≤ 65533) :
    ∃ c : Nat, CRC_Calculate A A.length = .ok c ∧
      CRC_Calculate (A ++ [toByte (c >>> 8), toByte (c &&& 0xFF)]) (A.length + 2) = .ok 0 := by
  refine ⟨A.foldl crcByte 0, ?_, ?_⟩
  · rw [CRC_Calculate_valid A A.length (by omega) le_rfl, List.take_length]
  · rw [CRC_Calculate_valid _ (A.length + 2) (by omega) (by simp),
      List.take_of_length_le (by simp), List.foldl_append]
    simp only [List.foldl_cons, List.foldl_nil]
    rw [crcByte_own_bytes (foldl_crcByte_lt A (by decide))]

set_option maxRecDepth 100000 in
/-- Claim C12, instance: the three bytes `0x4B 0x35 0x21`. -/
theorem own_checksum_appended_witness :
    ([0x4B, 0x35, 0x21] : List Byte).length ≤ 65533 ∧
      ∃ c : Nat, CRC_Calculate [0x4B, 0x35, 0x21] ([0x4B, 0x35, 0x21] : List Byte).length = .ok c ∧
        CRC_Calculate (([0x4B, 0x35, 0x21] : List Byte) ++ [toByte (c >>> 8), toByte (c &&& 0xFF)])
          (([0x4B, 0x35, 0x21] : List Byte).length + 2) = .ok 0 :=
  ⟨by decide, own_checksum_appended [0x4B, 0x35, 0x21] (by decide)⟩

/-- Claim C13: inverting one bit `j` of one byte `k` of a buffer of `1..65535`
bytes changes the checksum. -/
theorem single_bit_flip_detected (A : List Byte) (k j : Nat) (hn : A.length < 2 ^ 16)
    (hk : k < A.length) (hj : j < 8) :
    ∃ x y : Nat, CRC_Calculate A A.length = .ok x ∧
      CRC_Calculate (A.set k (flipBit A[k] j)) A.length = .ok y ∧ x ≠ y := by
  have hbit : 1 <<< j < 2 ^ 8 := by
    rw [Nat.shiftLeft_eq, Nat.one_mul]
    exact Nat.pow_lt_pow_right (by decide) hj
  have hflip : flipBit A[k] j ≠ A[k] := by
    intro h
    have hv : (A[k]).val ^^^ (1 <<< j) = (A[k]).val ^^^ 0 := by
      rw [Nat.xor_zero]
      have h2 := congrArg Fin.val h
      rwa [flipBit, toByte_val_of_lt (Nat.xor_lt_two_pow (n := 8) (A[k]).isLt hbit)] at h2
    rw [Nat.xor_right_inj, Nat.shiftLeft_eq, Nat.one_mul] at hv
    exact absurd hv (by positivity)
  have hA : A = A.take k ++ A[k] :: A.drop (k + 1) := by
    rw [← List.drop_eq_getElem_cons hk, List.take_append_drop]
  refine ⟨A.foldl crcByte 0, (A.set k (flipBit A[k] j)).foldl crcByte 0, ?_, ?_, ?_⟩
  · rw [CRC_Calculate_valid A A.length hn le_rfl, List.take_length]
  · rw [CRC_Calculate_valid _ A.length hn (by simp), List.take_of_length_le (by simp)]
  · intro h
    rw [List.set_eq_take_append_cons_drop, if_pos hk] at h
    nth_rewrite 1 [hA] at h
    simp only [List.foldl_append, List.foldl_cons] at h
    have hc := foldl_crcByte_lt (A.take k) (by decide : (0 : Nat) < 2 ^ 16)
    have h1 := foldl_crcByte_inj (A.drop (k + 1)) (crcByte_lt _ _) (crcByte_lt _ _) h
    exact hflip (crcByte_inj_byte hc _ _ h1).symm

set_option maxRecDepth 100000 in
/-- Claim C13, instance: bit 5 of the middle byte of three. -/
theorem single_bit_flip_detected_witness :
    (([0x10, 0x20, 0x30] : List Byte).length < 2 ^ 16 ∧
        1 < ([0x10, 0x20, 0x30] : List Byte).length ∧ 5 < 8) ∧
      ∃ x y : Nat, CRC_Calculate [0x10, 0x20, 0x30] ([0x10, 0x20, 0x30] : List Byte).length = .ok x ∧
        CRC_Calculate (([0x10, 0x20, 0x30] : List Byte).set 1
            (flipBit (([0x10, 0x20, 0x30] : List Byte).get ⟨1, by decide⟩) 5))
          ([0x10, 0x20, 0x30] : List Byte).length = .ok y ∧ x ≠ y :=
  ⟨⟨by decide, by decide, by decide⟩,
    single_bit_flip_detected [0x10, 0x20, 0x30] 1 5 (by decide) (by decide) (by decide)⟩

/-- Claim C14: on buffers of equal length `n`, the checksum of the bytewise
exclusive or is the exclusive or of the checksums. -/
theorem CRC_Calculate_xor_linear (A B : List Byte) (n : Nat) (hA : A.length = n)
    (hB : B.length = n) (hn : n < 2 ^ 16) :
    ∃ x y : Nat, CRC_Calculate A n = .ok x ∧ CRC_Calculate B n = .ok y ∧
      CRC_Calculate (xorBuffers A B) n = .ok (x ^^^ y) := by
  subst hA
  have hlen : (xorBuffers A B).length = A.length := by
    simp [xorBuffers, hB]
  refine ⟨A.foldl crcByte 0, B.foldl crcByte 0, ?_, ?_, ?_⟩
  · rw [CRC_Calculate_valid A A.length hn le_rfl, List.take_length]
  · rw [CRC_Calculate_valid B A.length hn (by omega), List.take_of_length_le (by omega)]
  · rw [CRC_Calculate_valid _ A.length hn (by omega), List.take_of_length_le (by omega)]
    have h := foldl_crcByte_xor A B 0 0 hB.symm
    rw [Nat.xor_self] at h
    rw [h]

set_option maxRecDepth 100000 in
/-- Claim C14, instance: two buffers of two bytes. -/
theorem CRC_Calculate_xor_linear_witness :
    (([0x12, 0xF0] : List Byte).length = 2 ∧ ([0x34, 0x0F] : List Byte).length = 2 ∧
        2 < 2 ^ 16) ∧
      ∃ x y : Nat, CRC_Calculate [0x12, 0xF0] 2 = .ok x ∧ CRC_Calculate [0x34, 0x0F] 2 = .ok y ∧
        CRC_Calculate (xorBuffers [0x12, 0xF0] [0x34, 0x0F]) 2 = .ok (x ^^^ y) :=
  ⟨⟨by decide, by decide, by decide⟩,
    CRC_Calculate_xor_linear [0x12, 0xF0] [0x34, 0x0F] 2 (by decide) (by decide) (by decide)⟩

/-- Claim C15: zero bytes in front of a buffer do not change its checksum, as
long as the total length stays within `0..65535`; an all-zero buffer has the
checksum 0 of the empty buffer. -/
theorem leading_zeros_ignored (k : Nat) (B : List Byte) (h : k + B.length ≤ 65535) :
    (∃ c : Nat, CRC_Calculate B B.length = .ok c ∧
        CRC_Calculate (List.replicate k 0 ++ B) (k + B.length) = .ok c) ∧
      CRC_Calculate (List.replicate k 0) k = .ok 0 ∧
      CRC_Calculate [] 0 = .ok 0 := by
  refine ⟨⟨B.foldl crcByte 0, ?_, ?_⟩, ?_, rfl⟩
  · rw [CRC_Calculate_valid B B.length (by omega) le_rfl, List.take_length]
  · rw [CRC_Calculate_valid _ (k + B.length) (by omega) (by simp),
      List.take_of_length_le (by simp), List.foldl_append, foldl_crcByte_zeros]
  · rw [CRC_Calculate_valid _ k (by omega) (by simp), List.take_of_length_le (by simp),
      foldl_crcByte_zeros]

set_option maxRecDepth 100000 in
/-- Claim C15, instance: three zero bytes in front of two bytes. -/
theorem leading_zeros_ignored_witness :
    3 + ([0xA5, 0x5A] : List Byte).length ≤ 65535 ∧
      ((∃ c : Nat, CRC_Calculate [0xA5, 0x5A] ([0xA5, 0x5A] : List Byte).length = .ok c ∧
          CRC_Calculate (List.replicate 3 0 ++ [0xA5, 0x5A])
            (3 + ([0xA5, 0x5A] : List Byte).length) = .ok c) ∧
        CRC_Calculate (List.replicate 3 0) 3 = .ok 0 ∧
        CRC_Calculate [] 0 = .ok 0) :=
  ⟨by decide, leading_zeros_ignored 3 [0xA5, 0x5A] (by decide)⟩

/-- Claim C16: for every 16-bit accumulator `crc` and byte `b`, the table-driven
update `((crc << 8) mod 2 ^ 16) XOR T[(crc >> 8) XOR b]`, with
`T[x] = CRC_Calculate([x], 1)`, has its table index below 256 and yields what
line 32 followed by the 8 passes of the inner loop yields. -/
theorem bit_serial_eq_table_driven (crc : Nat) (b : Byte) (h : crc < 2 ^ 16) :
    (crc >>> 8) ^^^ b.val < 256 ∧
      tableUpdate crc b = .ok (bitLoop 8 0 (xorByte crc b) 0).1 := by
  have hhi : crc >>> 8 < 2 ^ 8 := by
    rw [Nat.shiftRight_eq_div_pow]
    omega
  refine ⟨Nat.xor_lt_two_pow (n := 8) hhi b.isLt, ?_⟩
  unfold tableUpdate
  rw [T_eq]
  simp only [bitLoop_eight]
  rw [← crcByte_split h b]
  rfl

set_option maxRecDepth 100000 in
/-- Claim C16, instance: the accumulator `0xBEEF` and the byte `0x42`. -/
theorem bit_serial_eq_table_driven_witness :
    0xBEEF < 2 ^ 16 ∧
      ((0xBEEF >>> 8) ^^^ (0x42 : Byte).val < 256 ∧
        tableUpdate 0xBEEF 0x42 = .ok (bitLoop 8 0 (xorByte 0xBEEF 0x42) 0).1) :=
  ⟨by decide, bit_serial_eq_table_driven 0xBEEF 0x42 (by decide)⟩

end K5.CRC
